import Mathlib

/-!
Verification of the nucypher-kms client core (`nkms/client.py`):
path splitting, path-derived key wrapping, the versioned header codec,
and the encrypt/decrypt orchestration, shallowly embedded over byte
strings represented as `List Nat`.

The proxy re-encryption scheme, the symmetric cipher, the Keccak-256
digest and the msgpack serializer are external collaborators (their code
is not part of the client source); they are modelled from the spec as
concrete executable functions satisfying the interface the spec states.
-/

/-- Byte strings, as Python `bytes`: a list of values in `0..255`. -/
abbrev Bytes := List Nat

/-- Failure kinds. The first group models the Python exceptions the code
actually raises; the second group is the spec's error taxonomy
(never produced by the embedded source). -/
inductive Err where
  | unboundLocal        -- Python UnboundLocalError (local referenced before assignment)
  | overflow            -- Python OverflowError from int.to_bytes
  | msgpackInvalid      -- msgpack.loads on data that is not a packed byte string
  | msgpackIncomplete   -- msgpack.loads on truncated data
  | msgpackExtraData    -- msgpack.loads with trailing bytes after the object
  | msgpackPackOverflow -- msgpack.dumps of an overlong byte string
  | typeError           -- Python TypeError (e.g. a None key given to the cipher)
  | valueError          -- Python ValueError (e.g. a wrong-size symmetric key)
  | authenticationError -- symmetric ciphertext fails its integrity check
  | keyNotFound         -- spec's KeyNotFoundError
  | unsupportedVersion  -- spec's UnsupportedVersionError
  | unimplemented       -- spec's UnimplementedError
  deriving DecidableEq, Repr

/-- The msgpack-layer decode failures. -/
def Err.isDecode : Err → Bool
  | .msgpackInvalid => true
  | .msgpackIncomplete => true
  | .msgpackExtraData => true
  | _ => false

/-- Big-endian encoding of `n` into `w` bytes, as Python `n.to_bytes(w, 'big')`
produces when it succeeds. -/
def toBytesBE (w n : Nat) : Bytes :=
  (List.range w).map fun i => n / 256 ^ (w - 1 - i) % 256

/-- Python `int.from_bytes(b, 'big')`; an empty string decodes to 0. -/
def fromBytesBE (b : Bytes) : Nat :=
  b.foldl (fun a x => a * 256 + x) 0

/-- Python `n.to_bytes(4, 'big')`, which raises OverflowError for `n ≥ 2^32`. -/
def intToBytes4 (n : Nat) : Except Err Bytes :=
  if n < 2 ^ 32 then .ok (toBytesBE 4 n) else .error .overflow

/-! ## External collaborators, modelled from the spec -/

/-- Modelled from the spec: the Keccak-256 digest used by `_derive_path_key`
(the `sha3` library is not part of the client source). Per the spec it is an
arbitrary deterministic function with a fixed 32-byte output, used as a raw
private-key scalar. -/
def keccak256 (b : Bytes) : Bytes :=
  (List.range 32).map fun i =>
    (b.foldl (fun a x => (a * 131 + x + 1) % 1000003) i) % 256

/-- Modelled from the spec: `AsymmetricKeyCapability.publicFromPrivate`
(`priv2pub` of the proxy re-encryption collaborator, not part of the client
source). A tag byte keeps public keys distinct from private keys. -/
def priv2pub (priv : Bytes) : Bytes := 1 :: priv

/-- Modelled from the spec: `AsymmetricKeyCapability.encrypt(pubkey, key)` —
encrypt-to-public-key with a fixed 148-byte output in the reference
instantiation (a 33-byte public key and a 32-byte payload, zero-padded). -/
def preEncrypt (pubkey key : Bytes) : Bytes :=
  let body := pubkey ++ key
  body ++ List.replicate (148 - body.length) 0

/-- Modelled from the spec: `AsymmetricKeyCapability.decrypt(priv, ct)` —
recovers the payload under the matching private key; under any other key it
yields garbage bytes (here the raw 115-byte tail, never 32 bytes long). -/
def preDecrypt (priv ct : Bytes) : Bytes :=
  if ct.take 33 = priv2pub priv then (ct.drop 33).take 32 else ct.drop 33

/-- Modelled from the spec: `AsymmetricKeyCapability.rekey(privA, pubB)` —
an opaque re-encryption token between two keys (used only by `grant`). -/
def preRekey (privA pubB : Bytes) : Bytes := privA ++ pubB

/-- Modelled from the spec: `SymmetricCipherCapability.encrypt(key, data)` —
authenticated encryption under a 32-byte key with self-contained nonce
handling, modelled as a key-binding envelope. -/
def symmEncrypt (key data : Bytes) : Bytes := key ++ data

/-- Modelled from the spec: `SymmetricCipherCapability.decrypt(key, edata)` —
fails (does not panic) when the key is not the 32-byte key the envelope was
produced under. -/
def symmDecrypt (key edata : Bytes) : Except Err Bytes :=
  if key.length = 32 then
    if edata.take 32 = key then .ok (edata.drop 32)
    else .error .authenticationError
  else .error .valueError

/-- Modelled from the spec: `msgpack.dumps` on a byte string — the generic
length-prefixed byte-sequence envelope (bin32: tag `0xc6`, 4-byte big-endian
length, payload); packing an overlong byte string raises. -/
def packBytes (b : Bytes) : Except Err Bytes :=
  if b.length < 2 ^ 32 then .ok (198 :: (toBytesBE 4 b.length ++ b))
  else .error .msgpackPackOverflow

/-- Modelled from the spec: `msgpack.loads` — recovers the payload of the
envelope; truncated input, trailing bytes, or a non-envelope are hard decode
failures. -/
def unpackBytes (b : Bytes) : Except Err Bytes :=
  match b with
  | t :: rest =>
    if t = 198 then
      if 4 ≤ rest.length then
        let n := fromBytesBE (rest.take 4)
        let payload := rest.drop 4
        if payload.length = n then .ok payload
        else if payload.length < n then .error .msgpackIncomplete
        else .error .msgpackExtraData
      else .error .msgpackIncomplete
    else .error .msgpackInvalid
  | [] => .error .msgpackInvalid

/-! ## The client (`nkms/client.py`) -/

/-- The state of `Client`: the master private key generated at construction
(`self._priv_key`). -/
structure Client where
  priv_key : Bytes
  deriving DecidableEq, Repr

/-- `self._pub_key = self._pre.priv2pub(self._priv_key)`. -/
def Client.pub_key (c : Client) : Bytes := priv2pub c.priv_key

/-- `Client._derive_path_key`: `key = keccak_256(priv + path)`, returned
raw when `is_pub` is false and run through `priv2pub` when true. -/
def derive_path_key (c : Client) (path : Bytes) (is_pub : Bool) : Bytes :=
  let key := keccak256 (c.priv_key ++ path)
  if is_pub then priv2pub key else key

/-- `Client._split_path`: the `b'/'` sentinel returns `[b'']`; otherwise the
path is split on `/` (byte 47) and the cumulative joins of the leading
components are returned. -/
def splitPath (path : Bytes) : List Bytes :=
  if path = [47] then [[]]
  else
    let dirs := path.splitOn 47
    (List.range dirs.length).map fun i => List.intercalate [47] (dirs.take (i + 1))

/-- `Client._build_header`: for `version < 1000`, msgpack-pack the 4-byte
big-endian version, the 4-byte big-endian key count and the concatenated
keys; for any other version the local `header` is never assigned and the
final `return` raises UnboundLocalError. -/
def buildHeader (enc_keys : List Bytes) (version : Nat) : Except Err (Bytes × Nat) :=
  if version < 1000 then
    match intToBytes4 version with
    | .error e => .error e
    | .ok vers_bytes =>
      match intToBytes4 enc_keys.length with
      | .error e => .error e
      | .ok num_keys_bytes =>
        match packBytes (vers_bytes ++ num_keys_bytes ++ enc_keys.flatten) with
        | .error e => .error e
        | .ok header => .ok (header, header.length)
  else .error .unboundLocal

/-- `Client._read_header`: msgpack-unpack the header, read 4 bytes of
version, and for `version < 1000` read a 4-byte key count followed by that
many fixed 148-byte reads; reads finding fewer bytes than requested return
short (BytesIO semantics).  For any other version the local `enc_keys` is
never assigned and the final `return` raises UnboundLocalError. -/
def readHeader (header : Bytes) : Except Err (Nat × List Bytes) :=
  match unpackBytes header with
  | .error e => .error e
  | .ok payload =>
    let version := fromBytesBE (payload.take 4)
    if version < 1000 then
      let num_keys := fromBytesBE ((payload.drop 4).take 4)
      let rest := payload.drop 8
      let enc_keys := (List.range num_keys).map fun i => (rest.drop (148 * i)).take 148
      .ok (version, enc_keys)
    else .error .unboundLocal

/-- The value returned by `Client.encrypt_key`: a list of wrapped keys when a
path was given, a single wrapped key otherwise (Python returns either a
`list` or `bytes`). -/
inductive EncKeys where
  | keys (l : List Bytes)
  | single (k : Bytes)
  deriving DecidableEq, Repr

/-- The list branch of an `encrypt_key` result, as `Client.encrypt` uses it
when a path was given (the `.single` arm is never reached there). -/
def EncKeys.getKeys : EncKeys → List Bytes
  | .keys l => l
  | .single k => [k]

/-- The single-key branch of an `encrypt_key` result, as `Client.encrypt`
uses it when no path was given (the `.keys` arm is never reached there). -/
def EncKeys.getSingle : EncKeys → Bytes
  | .single k => k
  | .keys l => l.flatten

/-- `Client.encrypt_key`: `if not pubkey: pubkey = self._pub_key` (None and
the empty byte string are falsy); with a path, one wrapped key per subpath —
the source's self-call with `path=None` and `pubkey=path_pubkey` is inlined,
including its own falsy check on the derived public key; with no path, a
single wrapped key under `pubkey`. -/
def encrypt_key (c : Client) (key : Bytes) (pubkey : Option Bytes)
    (path : Option Bytes) : EncKeys :=
  let pk := match pubkey with
    | none => c.pub_key
    | some pb => if pb = [] then c.pub_key else pb
  match path with
  | some p =>
    EncKeys.keys ((splitPath p).map fun subpath =>
      let path_pubkey := derive_path_key c subpath true
      preEncrypt (if path_pubkey = [] then c.pub_key else path_pubkey) key)
  | none => EncKeys.single (preEncrypt pk key)

/-- `Client.decrypt_key`: derive the private key from the path when one is
given, else use the master private key; `pubkey` and `owner` are unused. -/
def decrypt_key (c : Client) (enc_key : Bytes) (pubkey : Option Bytes)
    (path : Option Bytes) (owner : Option Bytes) : Bytes :=
  let priv := match path with
    | some p => derive_path_key c p false
    | none => c.priv_key
  preDecrypt priv enc_key

/-- `Client.encrypt_bulk(data, key)`: symmetric encryption of the payload. -/
def encrypt_bulk (data key : Bytes) : Bytes := symmEncrypt key data

/-- `Client.decrypt_bulk(edata, key)`: constructing the cipher with a `None`
key raises TypeError (this is what `decrypt` does when no wrapped key
conformed). -/
def decrypt_bulk (edata : Bytes) (key : Option Bytes) : Except Err Bytes :=
  match key with
  | none => .error .typeError
  | some k => symmDecrypt k edata

/-- The candidate-key search loop of `Client.decrypt`: try the wrapped keys
in header order, accept the first whose decryption is exactly 32 bytes long
(`break`), and leave `valid_key = None` when none conforms. -/
def searchKey (c : Client) (path : Option Bytes) : List Bytes → Option Bytes
  | [] => none
  | enc_key :: rest =>
    let dec_key := decrypt_key c enc_key none path none
    if dec_key.length = 32 then some dec_key else searchKey c path rest

/-- The `enc_keys` list assembled by `Client.encrypt`: the `encrypt_key`
result itself when a path was given, that result wrapped in a one-element
list otherwise. -/
def wrappedKeyList (c : Client) (data_key : Bytes) (path : Option Bytes) :
    List Bytes :=
  match path with
  | some _ => (encrypt_key c data_key none path).getKeys
  | none => [(encrypt_key c data_key none path).getSingle]

/-- `Client.encrypt`: symmetric-encrypt the payload under a fresh 32-byte
data key (the random key is an explicit argument here), wrap the data key
per subpath (or once under the master public key), build the version-100
header, and emit `headerLength ‖ header ‖ ciphertext`. -/
def encrypt (c : Client) (data_key : Bytes) (data : Bytes)
    (path : Option Bytes) : Except Err Bytes :=
  match packBytes (encrypt_bulk data data_key) with
  | .error e => .error e
  | .ok ciphertext =>
    match buildHeader (wrappedKeyList c data_key path) 100 with
    | .error e => .error e
    | .ok (header, header_length) =>
      match intToBytes4 header_length with
      | .error e => .error e
      | .ok header_length_bytes => .ok (header_length_bytes ++ header ++ ciphertext)

/-- `Client.decrypt`: read the 4-byte header length and the header (short
reads return short), parse the header, msgpack-unpack the remainder, then
for `version < 1000` run the candidate-key search and bulk-decrypt with its
result (`None` when nothing conformed).  For any other version the local
`plaintext` is never assigned and the final statement raises
UnboundLocalError.  `owner` is never read. -/
def decrypt (c : Client) (edata : Bytes) (path : Option Bytes)
    (owner : Option Bytes) : Except Err Bytes :=
  match readHeader ((edata.drop 4).take (fromBytesBE (edata.take 4))) with
  | .error e => .error e
  | .ok (version, enc_keys) =>
    match unpackBytes ((edata.drop 4).drop (fromBytesBE (edata.take 4))) with
    | .error e => .error e
    | .ok ciphertext =>
      if version < 1000 then
        decrypt_bulk ciphertext (searchKey c path enc_keys)
      else .error .unboundLocal

/-- `Client.grant`: computes a re-encryption key and then does nothing
(`pass`), returning `None` to the caller. -/
def grant (c : Client) (pubkey : Bytes) (path : Option Bytes)
    (policy : Option Unit) : Except Err Unit :=
  let _reenc_key := preRekey c.priv_key pubkey
  .ok ()

/-- `Client.revoke`: `pass`, returning `None`. -/
def revoke (c : Client) (pubkey : Bytes) (path : Option Bytes) :
    Except Err Unit :=
  .ok ()

/-- `Client.list_permissions`: `pass`, returning `None`. -/
def list_permissions (c : Client) (pubkey : Option Bytes)
    (path : Option Bytes) : Except Err Unit :=
  .ok ()

/-- `Client.remove`: `pass`, returning `None`. -/
def remove (c : Client) (pubkey : Option Bytes) (path : Option Bytes) :
    Except Err Unit :=
  .ok ()

/-- The spec's cumulative joins, starting from an accumulated shallowest
prefix: `acc, acc+sep+d₁, acc+sep+d₁+sep+d₂, …`. -/
def cumJoinsFrom (acc : Bytes) : List Bytes → List Bytes
  | [] => [acc]
  | d :: ds => acc :: cumJoinsFrom (acc ++ 47 :: d) ds

/-- The spec's sequence of cumulative joins of the separator-delimited
components: `component[0], component[0]+sep+component[1], …, full path`. -/
def cumJoins : List Bytes → List Bytes
  | [] => []
  | d :: ds => cumJoinsFrom d ds

/-- Two fixed 148-byte wrapped keys, for the C4 witness. -/
def c4keys : List Bytes := [List.replicate 148 7, List.replicate 148 9]

/-- A concrete client with an all-zero 32-byte master private key. -/
def cx : Client := ⟨List.replicate 32 0⟩

/-- A concrete 32-byte data key. -/
def dkx : Bytes := List.replicate 32 1

/-- The single garbage wrapped key used by the C2 concrete instances. -/
def c2keys : List Bytes := [List.replicate 148 7]

/-- The header built from `c2keys`. -/
def c2hdr : Bytes × Nat := (buildHeader c2keys 100).toOption.getD ([], 0)

/-- The packed ciphertext envelope used by the C2 concrete instances. -/
def c2ct : Bytes := (packBytes (symmEncrypt dkx [104])).toOption.getD []

/-! ## Codec lemmas -/

theorem toBytesBE_length (w n : Nat) : (toBytesBE w n).length = w := by
  simp [toBytesBE]

theorem fromBytesBE_toBytesBE {n : Nat} (h : n < 2 ^ 32) :
    fromBytesBE (toBytesBE 4 n) = n := by
  simp only [toBytesBE, fromBytesBE]
  simp [List.range_succ, List.foldl]
  omega

theorem take_append_left {a b : Bytes} {n : Nat} (h : a.length = n) :
    (a ++ b).take n = a := by
  subst h; simp

theorem drop_append_left {a b : Bytes} {n : Nat} (h : a.length = n) :
    (a ++ b).drop n = b := by
  subst h; simp

theorem take_append_right {a b : Bytes} {n : Nat} (h : a.length ≤ n) :
    (a ++ b).take n = a ++ b.take (n - a.length) := by
  simp [List.take_append_eq_append_take, Nat.sub_eq_zero_of_le h, h]

theorem drop_append_right {a b : Bytes} {n : Nat} (h : a.length ≤ n) :
    (a ++ b).drop n = b.drop (n - a.length) := by
  simp [List.drop_append_eq_append_drop, Nat.sub_eq_zero_of_le h, h]

theorem keccak256_length (b : Bytes) : (keccak256 b).length = 32 := by
  simp [keccak256]

theorem packBytes_ok {b pb : Bytes} (h : packBytes b = .ok pb) :
    pb = 198 :: (toBytesBE 4 b.length ++ b) ∧ b.length < 2 ^ 32 := by
  unfold packBytes at h
  split at h
  · exact ⟨(Except.ok.injEq _ _).mp h |>.symm, by assumption⟩
  · exact absurd h (by simp)

theorem unpackBytes_packBytes {b pb : Bytes} (h : packBytes b = .ok pb) :
    unpackBytes pb = .ok b := by
  obtain ⟨hpb, hlen⟩ := packBytes_ok h
  subst hpb
  unfold unpackBytes
  have ht : (toBytesBE 4 b.length ++ b).take 4 = toBytesBE 4 b.length :=
    take_append_left (toBytesBE_length 4 _)
  have hd : (toBytesBE 4 b.length ++ b).drop 4 = b :=
    drop_append_left (toBytesBE_length 4 _)
  simp only [ht, hd, List.length_append, toBytesBE_length]
  simp [fromBytesBE_toBytesBE hlen]

theorem packBytes_ok_length {b pb : Bytes} (h : packBytes b = .ok pb) :
    pb.length = b.length + 5 := by
  obtain ⟨hpb, _⟩ := packBytes_ok h
  subst hpb
  simp [toBytesBE_length]
  omega

theorem flatten_extract (keys : List Bytes) (h : ∀ k ∈ keys, k.length = 148) :
    (List.range keys.length).map
      (fun i => ((keys.flatten).drop (148 * i)).take 148) = keys := by
  induction keys with
  | nil => simp
  | cons k ks ih =>
    have hk : k.length = 148 := h k (List.mem_cons_self _ _)
    have hks : ∀ x ∈ ks, x.length = 148 := fun x hx => h x (List.mem_cons_of_mem _ hx)
    simp only [List.length_cons, List.range_succ_eq_map, List.map_cons, List.map_map]
    congr 1
    · simp only [Nat.mul_zero, List.flatten_cons, List.drop_zero]
      exact take_append_left hk
    · have heq : ∀ i : Nat,
          (((k :: ks).flatten).drop (148 * (i + 1))).take 148 =
            ((ks.flatten).drop (148 * i)).take 148 := by
        intro i
        simp only [List.flatten_cons]
        rw [drop_append_right (show k.length ≤ 148 * (i + 1) by omega)]
        have harith : 148 * (i + 1) - k.length = 148 * i := by omega
        rw [harith]
      calc (List.range ks.length).map ((fun i => (((k :: ks).flatten).drop (148 * i)).take 148) ∘ Nat.succ)
          = (List.range ks.length).map (fun i => ((ks.flatten).drop (148 * i)).take 148) := by
            apply List.map_congr_left
            intro i _
            exact heq i
        _ = ks := ih hks

theorem buildHeader_ok {keys : List Bytes} {version : Nat} {H : Bytes} {L : Nat}
    (hb : buildHeader keys version = .ok (H, L)) :
    version < 1000 ∧ keys.length < 2 ^ 32 ∧
      packBytes (toBytesBE 4 version ++ toBytesBE 4 keys.length ++ keys.flatten) = .ok H ∧
      L = H.length := by
  by_cases hv : version < 1000
  · have hv32 : version < 2 ^ 32 := by omega
    by_cases hn : keys.length < 2 ^ 32
    · have hb' : buildHeader keys version =
          match packBytes (toBytesBE 4 version ++ toBytesBE 4 keys.length ++ keys.flatten) with
          | .error e => .error e
          | .ok header => .ok (header, header.length) := by
        unfold buildHeader intToBytes4
        rw [if_pos hv, if_pos hv32, if_pos hn]
      rw [hb'] at hb
      cases hpk : packBytes (toBytesBE 4 version ++ toBytesBE 4 keys.length ++ keys.flatten) with
      | error e => rw [hpk] at hb; exact absurd hb (by simp)
      | ok header =>
        rw [hpk] at hb
        simp only [Except.ok.injEq, Prod.mk.injEq] at hb
        obtain ⟨hH, hL⟩ := hb
        refine ⟨hv, hn, ?_, ?_⟩
        · rw [← hH]
        · rw [← hH, ← hL]
    · have hb' : buildHeader keys version = .error .overflow := by
        unfold buildHeader intToBytes4
        rw [if_pos hv, if_pos hv32, if_neg hn]
      rw [hb'] at hb
      exact absurd hb (by simp)
  · have hb' : buildHeader keys version = .error .unboundLocal := by
      unfold buildHeader
      rw [if_neg hv]
    rw [hb'] at hb
    exact absurd hb (by simp)

/-- Core header round trip: a header built from 148-byte keys parses back to
exactly the version and key list it was built from. -/
theorem readHeader_buildHeader {keys : List Bytes} {version : Nat} {H : Bytes} {L : Nat}
    (h148 : ∀ k ∈ keys, k.length = 148)
    (hb : buildHeader keys version = .ok (H, L)) :
    readHeader H = .ok (version, keys) := by
  obtain ⟨hv, hn, hpack, _⟩ := buildHeader_ok hb
  unfold readHeader
  rw [unpackBytes_packBytes hpack]
  have ht4 : (toBytesBE 4 version ++ toBytesBE 4 keys.length ++ keys.flatten).take 4 =
      toBytesBE 4 version := by
    rw [List.append_assoc]
    exact take_append_left (toBytesBE_length 4 _)
  have hd4 : (toBytesBE 4 version ++ toBytesBE 4 keys.length ++ keys.flatten).drop 4 =
      toBytesBE 4 keys.length ++ keys.flatten := by
    rw [List.append_assoc]
    exact drop_append_left (toBytesBE_length 4 _)
  have ht8 : (toBytesBE 4 keys.length ++ keys.flatten).take 4 = toBytesBE 4 keys.length :=
    take_append_left (toBytesBE_length 4 _)
  have hd8 : (toBytesBE 4 version ++ toBytesBE 4 keys.length ++ keys.flatten).drop 8 =
      keys.flatten := by
    have : (8 : Nat) = 4 + 4 := rfl
    rw [this, ← List.drop_drop, hd4]
    exact drop_append_left (toBytesBE_length 4 _)
  simp only [ht4, hd4, ht8, hd8, fromBytesBE_toBytesBE (by omega : version < 2 ^ 32),
    fromBytesBE_toBytesBE hn]
  rw [if_pos hv, flatten_extract keys h148]

/-! ## Path splitting (C5) -/

/-- C4: parsing the header produced by building it returns exactly the same
version and the same key list in the same order, for 148-byte wrapped keys
and a version strictly below 1000 (building succeeds exactly when the key
count and the packed payload fit the 4-byte fields). -/
theorem C4_header_roundtrip {keys : List Bytes} {version : Nat} {H : Bytes} {L : Nat}
    (h148 : ∀ k ∈ keys, k.length = 148) (hv : version < 1000)
    (hb : buildHeader keys version = .ok (H, L)) :
    readHeader H = .ok (version, keys) :=
  readHeader_buildHeader h148 hb

set_option maxRecDepth 40000 in
/-- C4 witness: the round trip at a concrete two-key header. -/
theorem C4_header_roundtrip_witness :
    readHeader ((buildHeader c4keys 100).toOption.getD ([], 0)).1 = .ok (100, c4keys) :=
  C4_header_roundtrip (by decide) (by decide) rfl

theorem cumJoinsFrom_map_append (x : Bytes) (l : List Bytes) :
    ∀ a : Bytes, (cumJoinsFrom a l).map (fun y => x ++ y) = cumJoinsFrom (x ++ a) l := by
  induction l with
  | nil => intro a; rfl
  | cons d ds ih =>
    intro a
    simp only [cumJoinsFrom, List.map_cons, ih (a ++ 47 :: d), List.append_assoc]

theorem intercalate_cons₂ (s a b : Bytes) (l : List Bytes) :
    List.intercalate s (a :: b :: l) = a ++ s ++ List.intercalate s (b :: l) := by
  simp [List.intercalate, List.intersperse]

theorem cumJoinsFrom_eq_map_range (ds : List Bytes) : ∀ d : Bytes,
    (List.range (ds.length + 1)).map
      (fun i => List.intercalate [47] ((d :: ds).take (i + 1))) = cumJoinsFrom d ds := by
  induction ds with
  | nil =>
    intro d
    simp [cumJoinsFrom, List.intercalate]
  | cons e es ih =>
    intro d
    rw [show (e :: es).length + 1 = (es.length + 1) + 1 from rfl, List.range_succ_eq_map,
      List.map_cons, List.map_map]
    rw [show cumJoinsFrom d (e :: es) = d :: cumJoinsFrom (d ++ 47 :: e) es from rfl]
    congr 1
    · simp [List.intercalate]
    · calc (List.range (es.length + 1)).map
            ((fun i => List.intercalate [47] ((d :: e :: es).take (i + 1))) ∘ Nat.succ)
          = (cumJoinsFrom e es).map (fun y => (d ++ [47]) ++ y) := by
            rw [← ih e, List.map_map]
            apply List.map_congr_left
            intro i _
            simp only [Function.comp_apply]
            rw [show (d :: e :: es).take (Nat.succ i + 1) = d :: e :: es.take i from rfl]
            rw [show (e :: es).take (i + 1) = e :: es.take i from rfl]
            simp [intercalate_cons₂, List.append_assoc]
        _ = cumJoinsFrom ((d ++ [47]) ++ e) es := cumJoinsFrom_map_append _ _ _
        _ = cumJoinsFrom (d ++ 47 :: e) es := by
            rw [List.append_assoc]
            rfl

/-- C5: `prefixesOf(b"/") = [b""]` (length 1), and every other path yields
exactly the `k` cumulative joins of its `k` separator-delimited components,
shallowest first. -/
theorem C5_split_path :
    splitPath [47] = [[]] ∧
    ∀ p : Bytes, p ≠ [47] →
      splitPath p = cumJoins (p.splitOn 47) ∧
      (splitPath p).length = (p.splitOn 47).length := by
  refine ⟨rfl, ?_⟩
  intro p hp
  have hdirs : p.splitOn 47 ≠ [] := List.splitOnP_ne_nil _ p
  constructor
  · unfold splitPath
    rw [if_neg hp]
    obtain ⟨d, ds, hds⟩ := List.exists_cons_of_ne_nil hdirs
    rw [hds]
    exact cumJoinsFrom_eq_map_range ds d
  · unfold splitPath
    rw [if_neg hp]
    simp

/-- C5 witness: the general case at the concrete path `/foo/bar`. -/
theorem C5_split_path_witness :
    splitPath [47, 102, 111, 111, 47, 98, 97, 114] =
      cumJoins (([47, 102, 111, 111, 47, 98, 97, 114] : Bytes).splitOn 47) ∧
    (splitPath [47, 102, 111, 111, 47, 98, 97, 114]).length =
      (([47, 102, 111, 111, 47, 98, 97, 114] : Bytes).splitOn 47).length :=
  C5_split_path.2 [47, 102, 111, 111, 47, 98, 97, 114] (by decide)

/-- C7 counterexample: with version 1000 both the builder and the parser
fail, but with the unbound-local failure of the source's unassigned locals,
not the spec's typed unsupported-version failure. -/
theorem C7_counterexample :
    buildHeader [] 1000 ≠ .error .unsupportedVersion ∧
    readHeader [198, 0, 0, 0, 4, 0, 0, 3, 232] ≠ .error .unsupportedVersion ∧
    buildHeader [] 1000 = .error .unboundLocal ∧
    readHeader [198, 0, 0, 0, 4, 0, 0, 3, 232] = .error .unboundLocal := by
  have h1 : buildHeader [] 1000 = .error .unboundLocal := rfl
  have h2 : readHeader [198, 0, 0, 0, 4, 0, 0, 3, 232] = .error .unboundLocal := rfl
  refine ⟨?_, ?_, h1, h2⟩
  · rw [h1]; simp
  · rw [h2]; simp

/-- C7 (amended): for every version ≥ 1000, building a header and parsing a
header carrying that version both fail, but with the untyped unbound-local
error of the source's never-assigned locals rather than a distinct typed
UnsupportedVersionError. -/
theorem C7_version_unbound :
    (∀ (keys : List Bytes) (version : Nat), 1000 ≤ version →
      buildHeader keys version = .error .unboundLocal) ∧
    (∀ (version : Nat) (rest hd : Bytes), 1000 ≤ version → version < 2 ^ 32 →
      packBytes (toBytesBE 4 version ++ rest) = .ok hd →
      readHeader hd = .error .unboundLocal) := by
  constructor
  · intro keys version hv
    unfold buildHeader
    rw [if_neg (by omega)]
  · intro version rest hd hv hv32 hpk
    unfold readHeader
    rw [unpackBytes_packBytes hpk]
    simp only [take_append_left (toBytesBE_length 4 version),
      fromBytesBE_toBytesBE hv32]
    rw [if_neg (by omega)]

/-- C7 witness: the amended behaviour at version 1000. -/
theorem C7_version_unbound_witness :
    buildHeader [] 1000 = .error .unboundLocal ∧
    readHeader [198, 0, 0, 0, 4, 0, 0, 3, 232] = .error .unboundLocal :=
  ⟨C7_version_unbound.1 [] 1000 (by decide),
   C7_version_unbound.2 1000 [] [198, 0, 0, 0, 4, 0, 0, 3, 232]
     (by decide) (by decide) rfl⟩

/-- C6 counterexample: a header announcing one wrapped key but containing
zero key bytes parses without any error — the fixed-size 148-byte read
finds fewer bytes than required and silently returns short instead of
failing with a decode error. -/
theorem C6_counterexample :
    readHeader [198, 0, 0, 0, 8, 0, 0, 0, 100, 0, 0, 0, 1] = .ok (100, [[]]) := rfl

theorem unpackBytes_eq (rest : Bytes) :
    unpackBytes (198 :: rest) =
      if 4 ≤ rest.length then
        if (rest.drop 4).length = fromBytesBE (rest.take 4) then .ok (rest.drop 4)
        else if (rest.drop 4).length < fromBytesBE (rest.take 4) then
          .error .msgpackIncomplete
        else .error .msgpackExtraData
      else .error .msgpackIncomplete := by
  simp [unpackBytes]

theorem readHeader_unpack_error {H : Bytes} {e : Err}
    (h : unpackBytes H = .error e) : readHeader H = .error e := by
  unfold readHeader
  rw [h]

theorem unpackBytes_take_corrupt {pl H : Bytes} (hH : packBytes pl = .ok H)
    (C : Bytes) (hC : C ≠ []) {n : Nat} (hne : n ≠ H.length) :
    ∃ e, unpackBytes ((H ++ C).take n) = .error e ∧ e.isDecode = true := by
  have hHlen : H.length = pl.length + 5 := packBytes_ok_length hH
  obtain ⟨hform, hlen⟩ := packBytes_ok hH
  have hClen : 0 < C.length := List.length_pos.mpr hC
  subst hform
  match n, hne with
  | 0, _ =>
    refine ⟨.msgpackInvalid, ?_, rfl⟩
    rw [List.take_zero]
    rfl
  | m + 1, hne =>
    have hm : m ≠ pl.length + 4 := by
      intro hcontra
      exact hne (by omega)
    have hsplit : ((198 :: (toBytesBE 4 pl.length ++ pl)) ++ C).take (m + 1) =
        198 :: ((toBytesBE 4 pl.length ++ (pl ++ C)).take m) := by
      rw [List.cons_append, List.take_succ_cons, List.append_assoc]
    rw [hsplit, unpackBytes_eq]
    have hXlen : (toBytesBE 4 pl.length ++ (pl ++ C)).length =
        4 + (pl.length + C.length) := by
      simp [toBytesBE_length]
    have htlen : ((toBytesBE 4 pl.length ++ (pl ++ C)).take m).length =
        min m (4 + (pl.length + C.length)) := by
      rw [List.length_take, hXlen]
    by_cases h4 : 4 ≤ m
    · have ht_take : ((toBytesBE 4 pl.length ++ (pl ++ C)).take m).take 4 =
          toBytesBE 4 pl.length := by
        rw [List.take_take, min_eq_left h4]
        exact take_append_left (toBytesBE_length 4 _)
      have ht_drop : ((toBytesBE 4 pl.length ++ (pl ++ C)).take m).drop 4 =
          (pl ++ C).take (m - 4) := by
        rw [List.drop_take, drop_append_left (toBytesBE_length 4 _)]
      rw [if_pos (by omega : 4 ≤ ((toBytesBE 4 pl.length ++ (pl ++ C)).take m).length),
        ht_take, ht_drop, fromBytesBE_toBytesBE hlen]
      have hplen : ((pl ++ C).take (m - 4)).length =
          min (m - 4) (pl.length + C.length) := by
        simp [List.length_take]
      by_cases hsmall : m - 4 < pl.length
      · refine ⟨.msgpackIncomplete, ?_, rfl⟩
        rw [if_neg (by omega), if_pos (by omega)]
      · refine ⟨.msgpackExtraData, ?_, rfl⟩
        rw [if_neg (by omega), if_neg (by omega)]
    · refine ⟨.msgpackIncomplete, ?_, rfl⟩
      rw [if_neg (by omega)]

theorem readHeader_take_corrupt {pl H : Bytes} (hH : packBytes pl = .ok H)
    (C : Bytes) (hC : C ≠ []) {n : Nat} (hne : n ≠ H.length) :
    ∃ e, readHeader ((H ++ C).take n) = .error e ∧ e.isDecode = true := by
  obtain ⟨e, he, hd⟩ := unpackBytes_take_corrupt hH C hC hne
  exact ⟨e, readHeader_unpack_error he, hd⟩

/-! ## Wrapped-key and search lemmas -/

theorem derive_path_key_pub_ne_nil (c : Client) (sp : Bytes) :
    derive_path_key c sp true ≠ [] := by
  simp [derive_path_key, priv2pub]

theorem wrappedKeyList_some (c : Client) (dk p : Bytes) :
    wrappedKeyList c dk (some p) =
      (splitPath p).map (fun sp => preEncrypt (derive_path_key c sp true) dk) := by
  unfold wrappedKeyList encrypt_key EncKeys.getKeys
  simp only
  apply List.map_congr_left
  intro sp _
  rw [if_neg (derive_path_key_pub_ne_nil c sp)]

theorem wrappedKeyList_none (c : Client) (dk : Bytes) :
    wrappedKeyList c dk none = [preEncrypt (priv2pub c.priv_key) dk] := rfl

theorem preEncrypt_length {pk k : Bytes} (h : pk.length + k.length ≤ 148) :
    (preEncrypt pk k).length = 148 := by
  simp [preEncrypt]
  omega

theorem preDecrypt_match {priv k : Bytes} (hpriv : priv.length = 32)
    (hk : k.length = 32) :
    preDecrypt priv (preEncrypt (priv2pub priv) k) = k := by
  have hpub : (priv2pub priv).length = 33 := by simp [priv2pub, hpriv]
  unfold preDecrypt preEncrypt
  simp only [List.append_assoc]
  rw [take_append_left hpub, if_pos rfl, drop_append_left hpub,
    take_append_left hk]

theorem preDecrypt_mismatch {priv pk k : Bytes} (hpk : pk.length = 33)
    (hk : k.length = 32) (hne : pk ≠ priv2pub priv) :
    (preDecrypt priv (preEncrypt pk k)).length = 115 := by
  unfold preDecrypt preEncrypt
  simp only [List.append_assoc]
  rw [take_append_left hpk, if_neg hne, drop_append_left hpk]
  simp [hpk, hk]

theorem searchKey_finds {c : Client} {path : Option Bytes} {dk : Bytes}
    (hdk : dk.length = 32) (keys : List Bytes)
    (hall : ∀ ek ∈ keys, decrypt_key c ek none path none = dk ∨
      (decrypt_key c ek none path none).length ≠ 32)
    (hex : ∃ ek ∈ keys, decrypt_key c ek none path none = dk) :
    searchKey c path keys = some dk := by
  induction keys with
  | nil =>
    obtain ⟨ek, hmem, _⟩ := hex
    exact absurd hmem (List.not_mem_nil _)
  | cons k ks ih =>
    unfold searchKey
    rcases hall k (List.mem_cons_self _ _) with heq | hlen
    · rw [heq, if_pos hdk]
    · rw [if_neg hlen]
      apply ih
      · exact fun ek hm => hall ek (List.mem_cons_of_mem _ hm)
      · rcases hex with ⟨ek, hmem, hek⟩
        rcases List.mem_cons.mp hmem with rfl | hm
        · exact absurd (hek ▸ hdk) hlen
        · exact ⟨ek, hm, hek⟩

theorem searchKey_none {c : Client} {path : Option Bytes} (keys : List Bytes)
    (h : ∀ ek ∈ keys, (decrypt_key c ek none path none).length ≠ 32) :
    searchKey c path keys = none := by
  induction keys with
  | nil => rfl
  | cons k ks ih =>
    unfold searchKey
    rw [if_neg (h k (List.mem_cons_self _ _))]
    exact ih (fun ek hm => h ek (List.mem_cons_of_mem _ hm))

/-! ## Encrypt/decrypt plumbing -/

theorem encrypt_ok {c : Client} {data_key data : Bytes} {p : Option Bytes}
    {container : Bytes} (h : encrypt c data_key data p = .ok container) :
    ∃ C H L,
      packBytes (symmEncrypt data_key data) = .ok C ∧
      buildHeader (wrappedKeyList c data_key p) 100 = .ok (H, L) ∧
      L < 2 ^ 32 ∧
      container = toBytesBE 4 L ++ H ++ C := by
  unfold encrypt at h
  split at h
  · exact absurd h (by simp)
  · rename_i ciphertext hpk
    split at h
    · exact absurd h (by simp)
    · rename_i header header_length hbh
      split at h
      · exact absurd h (by simp)
      · rename_i header_length_bytes hib
        unfold intToBytes4 at hib
        split at hib
        · rename_i hL
          simp only [Except.ok.injEq] at h hib
          refine ⟨ciphertext, header, header_length, hpk, hbh, hL, ?_⟩
          rw [← h, ← hib]
        · exact absurd hib (by simp)

theorem decrypt_readHeader_error {c : Client} {edata : Bytes}
    {p o : Option Bytes} {e : Err}
    (h : readHeader ((edata.drop 4).take (fromBytesBE (edata.take 4))) = .error e) :
    decrypt c edata p o = .error e := by
  unfold decrypt
  rw [h]

theorem decrypt_parse {c : Client} {H C : Bytes} {L : Nat} {p o : Option Bytes}
    (hL : H.length = L) (hL32 : L < 2 ^ 32) {version : Nat} {ks : List Bytes}
    (hrh : readHeader H = .ok (version, ks)) {ct : Bytes}
    (hct : unpackBytes C = .ok ct) (hv : version < 1000) :
    decrypt c (toBytesBE 4 L ++ H ++ C) p o =
      decrypt_bulk ct (searchKey c p ks) := by
  unfold decrypt
  have h1 : (toBytesBE 4 L ++ H ++ C).take 4 = toBytesBE 4 L := by
    rw [List.append_assoc]
    exact take_append_left (toBytesBE_length 4 _)
  have h2 : (toBytesBE 4 L ++ H ++ C).drop 4 = H ++ C := by
    rw [List.append_assoc]
    exact drop_append_left (toBytesBE_length 4 _)
  rw [h1, h2, fromBytesBE_toBytesBE hL32, take_append_left hL, hrh,
    drop_append_left hL, hct]
  simp [hv]

theorem decrypt_key_some (c : Client) (ek q : Bytes) :
    decrypt_key c ek none (some q) none =
      preDecrypt (derive_path_key c q false) ek := rfl

theorem decrypt_key_none_path (c : Client) (ek : Bytes) :
    decrypt_key c ek none none none = preDecrypt c.priv_key ek := rfl

theorem derive_path_key_false (c : Client) (q : Bytes) :
    derive_path_key c q false = keccak256 (c.priv_key ++ q) := rfl

theorem derive_path_key_true (c : Client) (q : Bytes) :
    derive_path_key c q true = priv2pub (keccak256 (c.priv_key ++ q)) := rfl

theorem derive_true_eq_priv2pub_false (c : Client) (q : Bytes) :
    derive_path_key c q true = priv2pub (derive_path_key c q false) := rfl

theorem symmDecrypt_symmEncrypt {k d : Bytes} (hk : k.length = 32) :
    symmDecrypt k (symmEncrypt k d) = .ok d := by
  unfold symmDecrypt symmEncrypt
  rw [if_pos hk, if_pos (take_append_left hk), drop_append_left hk]

theorem self_mem_splitPath {p : Bytes} (hp : p ≠ [47]) : p ∈ splitPath p := by
  unfold splitPath
  rw [if_neg hp]
  have hdirs : p.splitOn 47 ≠ [] := List.splitOnP_ne_nil _ p
  have hlen : 0 < (p.splitOn 47).length := List.length_pos.mpr hdirs
  apply List.mem_map.mpr
  refine ⟨(p.splitOn 47).length - 1, List.mem_range.mpr (by omega), ?_⟩
  have h1 : (p.splitOn 47).length - 1 + 1 = (p.splitOn 47).length := by omega
  rw [h1, List.take_length, List.intercalate_splitOn]

/-- C1 (amended): for every 32-byte master key, payload, 32-byte data key
and path other than the root sentinel `b"/"` (including the no-path case),
whenever `encrypt` produces a container, `decrypt` with the same path
returns the original payload. -/
theorem C1_roundtrip {c : Client} (h32 : c.priv_key.length = 32)
    {dk d : Bytes} (hdk : dk.length = 32) {p : Option Bytes}
    (hp : p ≠ some [47]) {container : Bytes}
    (henc : encrypt c dk d p = .ok container) :
    decrypt c container p none = .ok d := by
  obtain ⟨C, H, L, hC, hbh, hL32, hcont⟩ := encrypt_ok henc
  obtain ⟨_, _, _, hLH⟩ := buildHeader_ok hbh
  subst hcont
  have hkey148 : ∀ k ∈ wrappedKeyList c dk p, k.length = 148 := by
    cases p with
    | none =>
      rw [wrappedKeyList_none]
      intro k hk
      rw [List.mem_singleton] at hk
      subst hk
      exact preEncrypt_length (by simp [priv2pub, h32, hdk])
    | some q =>
      rw [wrappedKeyList_some]
      intro k hk
      obtain ⟨sp, _, rfl⟩ := List.mem_map.mp hk
      exact preEncrypt_length
        (by simp [derive_path_key, priv2pub, keccak256_length, hdk])
  have hrh : readHeader H = .ok (100, wrappedKeyList c dk p) :=
    readHeader_buildHeader hkey148 hbh
  have hct := unpackBytes_packBytes hC
  rw [decrypt_parse hLH.symm hL32 hrh hct (by omega)]
  have hsearch : searchKey c p (wrappedKeyList c dk p) = some dk := by
    cases p with
    | none =>
      apply searchKey_finds hdk
      · intro ek hm
        rw [wrappedKeyList_none, List.mem_singleton] at hm
        subst hm
        exact Or.inl (by rw [decrypt_key_none_path]; exact preDecrypt_match h32 hdk)
      · refine ⟨preEncrypt (priv2pub c.priv_key) dk, ?_, ?_⟩
        · rw [wrappedKeyList_none]
          exact List.mem_singleton.mpr rfl
        · rw [decrypt_key_none_path]
          exact preDecrypt_match h32 hdk
    | some q =>
      have hq : q ≠ [47] := fun hcontra => hp (by rw [hcontra])
      apply searchKey_finds hdk
      · intro ek hm
        rw [wrappedKeyList_some] at hm
        obtain ⟨sp, _, rfl⟩ := List.mem_map.mp hm
        by_cases heq : derive_path_key c sp true =
          priv2pub (derive_path_key c q false)
        · left
          rw [decrypt_key_some, heq]
          exact preDecrypt_match
            (by rw [derive_path_key_false]; exact keccak256_length _) hdk
        · right
          rw [decrypt_key_some, preDecrypt_mismatch
            (by simp [derive_path_key, priv2pub, keccak256_length]) hdk heq]
          omega
      · refine ⟨preEncrypt (derive_path_key c q true) dk, ?_, ?_⟩
        · rw [wrappedKeyList_some]
          exact List.mem_map.mpr ⟨q, self_mem_splitPath hq, rfl⟩
        · rw [decrypt_key_some, derive_true_eq_priv2pub_false]
          exact preDecrypt_match
            (by rw [derive_path_key_false]; exact keccak256_length _) hdk
  rw [hsearch]
  show symmDecrypt dk (symmEncrypt dk d) = .ok d
  exact symmDecrypt_symmEncrypt hdk

set_option maxRecDepth 100000 in
/-- C1 counterexample: at the root-sentinel path `b"/"` the round trip
fails: encrypt wraps the data key under the derived key for `b""`, decrypt
derives the key for `b"/"`, finds no conforming candidate, and crashes in
the bulk decryptor with a TypeError instead of returning the payload. -/
theorem C1_counterexample :
    decrypt cx ((encrypt cx dkx [104, 105] (some [47])).toOption.getD [])
      (some [47]) none = .error .typeError ∧
    decrypt cx ((encrypt cx dkx [104, 105] (some [47])).toOption.getD [])
      (some [47]) none ≠ .ok [104, 105] := by
  have h : decrypt cx ((encrypt cx dkx [104, 105] (some [47])).toOption.getD [])
      (some [47]) none = .error .typeError := by rfl
  exact ⟨h, by rw [h]; simp⟩

set_option maxRecDepth 100000 in
/-- C1 witness: the amended round trip at the concrete path `/a`. -/
theorem C1_roundtrip_witness :
    decrypt cx ((encrypt cx dkx [104, 105] (some [47, 97])).toOption.getD [])
      (some [47, 97]) none = .ok [104, 105] :=
  @C1_roundtrip cx (by decide) dkx [104, 105] (by decide) (some [47, 97])
    (by decide) ((encrypt cx dkx [104, 105] (some [47, 97])).toOption.getD [])
    (by rfl)

/-- C6 (amended): corrupting the 4-byte headerLength field of a container
produced by encrypt to any other value makes decrypt fail with a
msgpack-layer decode error — never an out-of-bounds read and never a
silent success (short fixed-size reads themselves return short silently;
see the counterexample). -/
theorem C6_corrupt_header_length {c : Client} {dk d : Bytes} {p : Option Bytes}
    {container : Bytes} (henc : encrypt c dk d p = .ok container)
    {L' : Nat} (hL' : L' < 2 ^ 32)
    (hne : L' ≠ fromBytesBE (container.take 4)) :
    ∃ e, decrypt c (toBytesBE 4 L' ++ container.drop 4) p none = .error e ∧
      e.isDecode = true := by
  obtain ⟨C, H, L, hC, hbh, hL32, hcont⟩ := encrypt_ok henc
  obtain ⟨_, _, hpackH, hLH⟩ := buildHeader_ok hbh
  subst hcont
  have htake4 : (toBytesBE 4 L ++ H ++ C).take 4 = toBytesBE 4 L := by
    rw [List.append_assoc]
    exact take_append_left (toBytesBE_length 4 _)
  have hdrop4 : (toBytesBE 4 L ++ H ++ C).drop 4 = H ++ C := by
    rw [List.append_assoc]
    exact drop_append_left (toBytesBE_length 4 _)
  rw [htake4, fromBytesBE_toBytesBE hL32] at hne
  rw [hdrop4]
  have hCne : C ≠ [] := by
    obtain ⟨hCform, _⟩ := packBytes_ok hC
    rw [hCform]
    simp
  have hne' : L' ≠ H.length := fun hcontra => hne (by rw [hcontra, hLH])
  obtain ⟨e, he, hd⟩ := readHeader_take_corrupt hpackH C hCne hne'
  refine ⟨e, ?_, hd⟩
  apply decrypt_readHeader_error
  have h1 : (toBytesBE 4 L' ++ (H ++ C)).take 4 = toBytesBE 4 L' :=
    take_append_left (toBytesBE_length 4 _)
  have h2 : (toBytesBE 4 L' ++ (H ++ C)).drop 4 = H ++ C :=
    drop_append_left (toBytesBE_length 4 _)
  rw [h1, h2, fromBytesBE_toBytesBE hL']
  exact he

set_option maxRecDepth 100000 in
/-- C6 witness: zeroing the headerLength of a concrete container makes
decrypt fail with a decode error. -/
theorem C6_corrupt_header_length_witness :
    ∃ e, decrypt cx
      (toBytesBE 4 0 ++ ((encrypt cx dkx [104] none).toOption.getD []).drop 4)
      none none = .error e ∧ e.isDecode = true :=
  @C6_corrupt_header_length cx dkx [104] none
    ((encrypt cx dkx [104] none).toOption.getD []) (by rfl) 0 (by decide)
    (by decide)

/-- C2 (amended): the candidate-key search tries the wrapped keys in header
order and accepts the first whose decryption is exactly 32 bytes — the
remaining candidates are never consulted; but when no wrapped key conforms,
decrypt hands the `None` key to the bulk decryptor and fails with a
TypeError, not with a distinct KeyNotFoundError. -/
theorem C2_first_match :
    (∀ (c : Client) (path : Option Bytes) (ks1 : List Bytes) (k : Bytes)
        (ks2 : List Bytes),
      (∀ ek ∈ ks1, (decrypt_key c ek none path none).length ≠ 32) →
      (decrypt_key c k none path none).length = 32 →
      searchKey c path (ks1 ++ k :: ks2) =
        some (decrypt_key c k none path none)) ∧
    (∀ (c : Client) (path owner : Option Bytes) (keys : List Bytes)
        (version : Nat) (H : Bytes) (L : Nat) (ctp C : Bytes),
      buildHeader keys version = .ok (H, L) → L < 2 ^ 32 →
      (∀ k ∈ keys, k.length = 148) → packBytes ctp = .ok C →
      (∀ ek ∈ keys, (decrypt_key c ek none path none).length ≠ 32) →
      decrypt c (toBytesBE 4 L ++ H ++ C) path owner = .error .typeError) := by
  constructor
  · intro c path ks1 k ks2 hpre hk
    induction ks1 with
    | nil =>
      rw [List.nil_append]
      unfold searchKey
      rw [if_pos hk]
    | cons e es ih =>
      rw [List.cons_append]
      unfold searchKey
      rw [if_neg (hpre e (List.mem_cons_self _ _))]
      exact ih (fun ek hm => hpre ek (List.mem_cons_of_mem _ hm))
  · intro c path owner keys version H L ctp C hb hL32 h148 hC hno
    obtain ⟨hv, _, _, hLH⟩ := buildHeader_ok hb
    rw [decrypt_parse hLH.symm hL32 (readHeader_buildHeader h148 hb)
      (unpackBytes_packBytes hC) hv]
    rw [searchKey_none keys hno]
    rfl

set_option maxRecDepth 100000 in
/-- C2 counterexample: a container whose only wrapped key decrypts to a
wrong-length value makes decrypt fail with a TypeError, not with the
distinct KeyNotFoundError the claim asserts. -/
theorem C2_counterexample :
    decrypt cx (toBytesBE 4 c2hdr.2 ++ c2hdr.1 ++ c2ct) none none =
      .error .typeError ∧
    decrypt cx (toBytesBE 4 c2hdr.2 ++ c2hdr.1 ++ c2ct) none none ≠
      .error .keyNotFound := by
  have h : decrypt cx (toBytesBE 4 c2hdr.2 ++ c2hdr.1 ++ c2ct) none none =
      .error .typeError := by rfl
  exact ⟨h, by rw [h]; simp⟩

set_option maxRecDepth 100000 in
/-- C2 witness: both amended branches at concrete inputs. -/
theorem C2_first_match_witness :
    searchKey cx none ([] ++ preEncrypt (priv2pub cx.priv_key) dkx :: []) =
      some (decrypt_key cx (preEncrypt (priv2pub cx.priv_key) dkx)
        none none none) ∧
    decrypt cx (toBytesBE 4 c2hdr.2 ++ c2hdr.1 ++ c2ct) none none =
      .error .typeError :=
  ⟨C2_first_match.1 cx none [] (preEncrypt (priv2pub cx.priv_key) dkx) []
      (by simp) (by decide),
   C2_first_match.2 cx none none c2keys 100 c2hdr.1 c2hdr.2
      (symmEncrypt dkx [104]) c2ct (by rfl) (by decide) (by decide) (by rfl)
      (by decide)⟩

/-- C3: the container built by encrypt with a non-empty path holds exactly
`len(prefixesOf(p))` wrapped keys, one per path prefix in prefix order, each
produced under the path-derived public key; with no path it holds exactly
one wrapped key, produced under the master public key. -/
theorem C3_wrapped_key_count :
    (∀ (c : Client) (dk d p container : Bytes),
      c.priv_key.length = 32 → dk.length = 32 → p ≠ [] →
      encrypt c dk d (some p) = .ok container →
      readHeader ((container.drop 4).take (fromBytesBE (container.take 4))) =
        .ok (100, (splitPath p).map
          (fun sp => preEncrypt (derive_path_key c sp true) dk)) ∧
      ((splitPath p).map
          (fun sp => preEncrypt (derive_path_key c sp true) dk)).length =
        (splitPath p).length) ∧
    (∀ (c : Client) (dk d container : Bytes),
      c.priv_key.length = 32 → dk.length = 32 →
      encrypt c dk d none = .ok container →
      readHeader ((container.drop 4).take (fromBytesBE (container.take 4))) =
        .ok (100, [preEncrypt (priv2pub c.priv_key) dk])) := by
  constructor
  · intro c dk d p container h32 hdk hp henc
    obtain ⟨C, H, L, hC, hbh, hL32, hcont⟩ := encrypt_ok henc
    obtain ⟨_, _, _, hLH⟩ := buildHeader_ok hbh
    subst hcont
    have htake4 : (toBytesBE 4 L ++ H ++ C).take 4 = toBytesBE 4 L := by
      rw [List.append_assoc]
      exact take_append_left (toBytesBE_length 4 _)
    have hdrop4 : (toBytesBE 4 L ++ H ++ C).drop 4 = H ++ C := by
      rw [List.append_assoc]
      exact drop_append_left (toBytesBE_length 4 _)
    rw [htake4, hdrop4, fromBytesBE_toBytesBE hL32, take_append_left hLH.symm]
    have hkey148 : ∀ k ∈ wrappedKeyList c dk (some p), k.length = 148 := by
      rw [wrappedKeyList_some]
      intro k hk
      obtain ⟨sp, _, rfl⟩ := List.mem_map.mp hk
      exact preEncrypt_length
        (by simp [derive_path_key, priv2pub, keccak256_length, hdk])
    have hrh := readHeader_buildHeader hkey148 hbh
    rw [wrappedKeyList_some] at hrh
    exact ⟨hrh, by simp⟩
  · intro c dk d container h32 hdk henc
    obtain ⟨C, H, L, hC, hbh, hL32, hcont⟩ := encrypt_ok henc
    obtain ⟨_, _, _, hLH⟩ := buildHeader_ok hbh
    subst hcont
    have htake4 : (toBytesBE 4 L ++ H ++ C).take 4 = toBytesBE 4 L := by
      rw [List.append_assoc]
      exact take_append_left (toBytesBE_length 4 _)
    have hdrop4 : (toBytesBE 4 L ++ H ++ C).drop 4 = H ++ C := by
      rw [List.append_assoc]
      exact drop_append_left (toBytesBE_length 4 _)
    rw [htake4, hdrop4, fromBytesBE_toBytesBE hL32, take_append_left hLH.symm]
    have hkey148 : ∀ k ∈ wrappedKeyList c dk none, k.length = 148 := by
      rw [wrappedKeyList_none]
      intro k hk
      rw [List.mem_singleton] at hk
      subst hk
      exact preEncrypt_length (by simp [priv2pub, h32, hdk])
    have hrh := readHeader_buildHeader hkey148 hbh
    rw [wrappedKeyList_none] at hrh
    exact hrh

set_option maxRecDepth 100000 in
/-- C3 witness: both branches at concrete inputs (path `/a` and no path). -/
theorem C3_wrapped_key_count_witness :
    (readHeader ((((encrypt cx dkx [104] (some [47, 97])).toOption.getD []).drop 4).take
        (fromBytesBE (((encrypt cx dkx [104] (some [47, 97])).toOption.getD []).take 4))) =
      .ok (100, (splitPath [47, 97]).map
        (fun sp => preEncrypt (derive_path_key cx sp true) dkx)) ∧
      ((splitPath [47, 97]).map
        (fun sp => preEncrypt (derive_path_key cx sp true) dkx)).length =
        (splitPath [47, 97]).length) ∧
    readHeader ((((encrypt cx dkx [104] none).toOption.getD []).drop 4).take
        (fromBytesBE (((encrypt cx dkx [104] none).toOption.getD []).take 4))) =
      .ok (100, [preEncrypt (priv2pub cx.priv_key) dkx]) :=
  ⟨C3_wrapped_key_count.1 cx dkx [104] [47, 97]
      ((encrypt cx dkx [104] (some [47, 97])).toOption.getD [])
      (by decide) (by decide) (by decide) (by rfl),
   C3_wrapped_key_count.2 cx dkx [104]
      ((encrypt cx dkx [104] none).toOption.getD [])
      (by decide) (by decide) (by rfl)⟩

/-- C9: decrypt never reads its owner argument — for any two owner values
the result (success or failure) is identical. -/
theorem C9_owner_never_read (c : Client) (edata : Bytes)
    (p o1 o2 : Option Bytes) :
    decrypt c edata p o1 = decrypt c edata p o2 := rfl

/-- C10: when both a pubkey and a path are given to encrypt_key, the
explicit pubkey is ignored — the result equals the no-pubkey call, and every
wrapped key is produced under the path-derived public key. -/
theorem C10_pubkey_ignored (c : Client) (key pb p : Bytes) :
    encrypt_key c key (some pb) (some p) = encrypt_key c key none (some p) ∧
    encrypt_key c key (some pb) (some p) =
      .keys ((splitPath p).map fun sp =>
        preEncrypt (derive_path_key c sp true) key) := by
  refine ⟨rfl, ?_⟩
  unfold encrypt_key
  simp only
  congr 1

/-- C8 counterexample: all four policy operations return None silently
instead of surfacing a typed UnimplementedError. -/
theorem C8_counterexample :
    grant cx [3] none none = .ok () ∧
    grant cx [3] none none ≠ .error .unimplemented ∧
    revoke cx [3] none ≠ .error .unimplemented ∧
    list_permissions cx none none ≠ .error .unimplemented ∧
    remove cx none none ≠ .error .unimplemented := by
  have hg : grant cx [3] none none = .ok () := rfl
  have hr : revoke cx [3] none = .ok () := rfl
  have hl : list_permissions cx none none = .ok () := rfl
  have hm : remove cx none none = .ok () := rfl
  exact ⟨hg, by rw [hg]; simp, by rw [hr]; simp, by rw [hl]; simp,
    by rw [hm]; simp⟩

/-- C8 (amended): grant, revoke, list_permissions and remove all silently
return None for every invocation — no error of any kind is surfaced. -/
theorem C8_policy_silent :
    (∀ (c : Client) (pubkey : Bytes) (path : Option Bytes)
        (policy : Option Unit), grant c pubkey path policy = .ok ()) ∧
    (∀ (c : Client) (pubkey : Bytes) (path : Option Bytes),
      revoke c pubkey path = .ok ()) ∧
    (∀ (c : Client) (pubkey path : Option Bytes),
      list_permissions c pubkey path = .ok ()) ∧
    (∀ (c : Client) (pubkey path : Option Bytes),
      remove c pubkey path = .ok ()) :=
  ⟨fun _ _ _ _ => rfl, fun _ _ _ => rfl, fun _ _ _ => rfl, fun _ _ _ => rfl⟩
